import Mathlib

/-!
Shallow embedding of the `mhn` associative-memory library.

The byte-level storage layer (`to_bytes`, `to_f32`, `to_arr2`,
`VectorDatabase`) is modelled computably, with an `f32` value represented
by its 32-bit little-endian bit pattern as a natural number `< 2^32`.
The numerical engine (`softmax`, `HopfieldNet.update_rule`,
`HopfieldNet.converge`) is modelled over the real numbers; a panic of the
Rust code (out-of-bounds index, `unwrap` failure) is modelled as `none`.
-/

namespace Mhn

/-! ## Byte-level serialization: `to_bytes` / `to_f32` -/

/-- Little-endian 4-byte encoding of one `f32` bit pattern
(`v.to_le_bytes()` in the source). -/
def f32ToLeBytes (v : ℕ) : List ℕ :=
  [v % 256, v / 256 % 256, v / 256 ^ 2 % 256, v / 256 ^ 3 % 256]

/-- `to_bytes`: concatenated little-endian 4-byte records, no length
prefix. -/
def to_bytes (values : List ℕ) : List ℕ :=
  values.flatMap f32ToLeBytes

/-- `f32::from_le_bytes` on one 4-byte chunk. -/
def f32FromLeBytes (b0 b1 b2 b3 : ℕ) : ℕ :=
  b0 + 256 * b1 + 256 ^ 2 * b2 + 256 ^ 3 * b3

/-- `to_f32`: decode via `chunks_exact(4)`; a trailing remainder of fewer
than 4 bytes is dropped, exactly as `chunks_exact` drops it. -/
def to_f32 : List ℕ → List ℕ
  | b0 :: b1 :: b2 :: b3 :: rest => f32FromLeBytes b0 b1 b2 b3 :: to_f32 rest
  | _ => []

theorem to_f32_to_bytes_single (v : ℕ) (hv : v < 2 ^ 32) :
    to_f32 (f32ToLeBytes v) = [v] := by
  simp only [f32ToLeBytes, to_f32, f32FromLeBytes]
  congr 1
  omega

/-! ## `to_arr2`: `Array2::from_shape_vec((n, v[0].len()), flatten).unwrap()`

`v[0]` on an empty `Vec` panics, and `from_shape_vec` fails (so `unwrap`
panics) exactly when the flattened length differs from `n * v[0].len()`;
both panics are modelled as `none`.  On success the `n × d` array holds the
flattened data row-major, i.e. row `i` is the `i`-th `d`-slice. -/

/-- Row-major reading of an `n × d` array from flat data: `n` successive
slices of length `d`. -/
def rowMajorRows (d : ℕ) : ℕ → List ℕ → List (List ℕ)
  | 0, _ => []
  | n + 1, l => l.take d :: rowMajorRows d n (l.drop d)

/-- `to_arr2` from the source, with both panic paths as `none`. -/
def to_arr2 (v : List (List ℕ)) : Option (List (List ℕ)) :=
  match v with
  | [] => none
  | v0 :: rest =>
      if (v0 :: rest).flatten.length = (v0 :: rest).length * v0.length then
        some (rowMajorRows v0.length (v0 :: rest).length (v0 :: rest).flatten)
      else none

/-! ## `VectorDatabase`

The `documents` table (`embeddings BLOB, text TEXT`) is a keyless,
indexless table; a full scan visits rows in insertion order, so the table
state is a list of rows in insertion order. -/

/-- One row of the `documents` table. -/
structure DocumentRow where
  embeddings : List ℕ
  text : String
deriving DecidableEq, Repr

/-- Table state: rows in insertion order. -/
abbrev Table := List DocumentRow

namespace VectorDatabase

/-- `add`: `INSERT INTO documents VALUES(to_bytes(embedding), text)`. -/
def add (docs : Table) (embedding : List ℕ) (text : String) : Table :=
  docs ++ [⟨to_bytes embedding, text⟩]

/-- `get`: `SELECT text FROM documents WHERE embeddings=(?1)`, returning
the first matching row's text, or `String.new()` when no row matches. -/
def get (docs : Table) (embedding : List ℕ) : String :=
  match docs.find? (fun row => row.embeddings = to_bytes embedding) with
  | some row => row.text
  | none => ""

/-- `get_all_embeddings`: decode every row's blob in order and assemble
with `to_arr2`. -/
def get_all_embeddings (docs : Table) : Option (List (List ℕ)) :=
  to_arr2 (docs.map fun row => to_f32 row.embeddings)

end VectorDatabase

/-! ## The numeric engine, over `ℝ` -/

/-- `q × n` matrix of reals (the model of `Array2<f32>`). -/
abbrev Mat (q n : ℕ) : Type := Matrix (Fin q) (Fin n) ℝ

/-- The entries of a matrix in row-major iteration order
(`arr.iter()` of `ndarray` in standard layout). -/
def entriesList {q n : ℕ} (A : Mat q n) : List ℝ :=
  (List.finRange q).flatMap fun i => (List.finRange n).map fun j => A i j

/-- `arr.iter().cloned().fold(arr[(0, 0)], f32::max)`: the fold needs the
index `(0, 0)` to be in bounds, hence the positivity arguments (an empty
axis makes the source panic). -/
def globalMax {q n : ℕ} (hq : 0 < q) (hn : 0 < n) (A : Mat q n) : ℝ :=
  (entriesList A).foldl max (A ⟨0, hq⟩ ⟨0, hn⟩)

/-- `softmax` from the source: subtract the single global maximum,
exponentiate entrywise, and divide by the sum over ALL entries
(`logits.sum()` sums the whole matrix, not each row). -/
noncomputable def softmax {q n : ℕ} (hq : 0 < q) (hn : 0 < n) (A : Mat q n) :
    Mat q n :=
  let m : ℝ := globalMax hq hn A
  let logits : Mat q n := Matrix.of fun i j => Real.exp (A i j - m)
  let s : ℝ := ∑ i, ∑ j, logits i j
  Matrix.of fun i j => logits i j / s

/-- The Hopfield network state: stored patterns `x : n × d` and inverse
temperature `beta`. -/
structure HopfieldNet (n d : ℕ) where
  x : Mat n d
  beta : ℝ

/-- `hopfield_net_init`: `beta` defaults to `100.0`. -/
def hopfield_net_init {n d : ℕ} (x : Mat n d) (beta : Option ℝ) :
    HopfieldNet n d :=
  ⟨x, beta.getD 100⟩

namespace HopfieldNet

/-- `update_rule`: `softmax(beta * eps.dot(x.t())).dot(x)`.  The
similarity matrix is `q × n`, so the softmax panics unless `q` and `n`
are both positive. -/
noncomputable def update_rule {n d q : ℕ} (net : HopfieldNet n d)
    (hn : 0 < n) (hq : 0 < q) (eps : Mat q d) : Mat q d :=
  softmax hq hn (net.beta • (eps * net.x.transpose)) * net.x

/-- `update_rule` with the panic path explicit: `none` when either the
query or the memory is empty (the softmax would index out of bounds). -/
noncomputable def update_rule_checked {n d q : ℕ} (net : HopfieldNet n d)
    (eps : Mat q d) : Option (Mat q d) :=
  if h : 0 < q ∧ 0 < n then some (net.update_rule h.2 h.1 eps) else none

/-- One state of the `converge` loop is `(pre, eps)`; each pass checks
`pre = eps`, returning `pre`, else sets `pre := eps; eps := update_rule
eps`.  `fuel` bounds the number of checks; `none` means the fuel ran out
(the loop is still running) or `update_rule` panicked. -/
noncomputable def convergeFuel {n d : ℕ} (net : HopfieldNet n d) :
    ℕ → Mat 1 d → Mat 1 d → Option (Mat 1 d)
  | 0, _, _ => none
  | fuel + 1, pre, eps =>
      if pre = eps then some pre
      else (net.update_rule_checked eps).bind (convergeFuel net fuel eps)

/-- `converge`: the loop starts from `pre = zeros((1, d))` and the given
query.  `converge net fuel eps = some r` says the source loop returns `r`
(within `fuel` checks). -/
noncomputable def converge {n d : ℕ} (net : HopfieldNet n d) (fuel : ℕ)
    (eps : Mat 1 d) : Option (Mat 1 d) :=
  convergeFuel net fuel (0 : Mat 1 d) eps

/-- The source loop terminates on `eps` iff some fuel suffices. -/
def convergeTerminates {n d : ℕ} (net : HopfieldNet n d)
    (eps : Mat 1 d) : Prop :=
  ∃ fuel r, net.converge fuel eps = some r

/-- The iterate sequence of `update_rule` from a query. -/
noncomputable def iterate {n d : ℕ} (net : HopfieldNet n d) (hn : 0 < n)
    (eps : Mat 1 d) : ℕ → Mat 1 d
  | 0 => eps
  | k + 1 => net.update_rule hn Nat.one_pos (net.iterate hn eps k)

end HopfieldNet

/-- The softmax formula as the spec words it: exponentials of the
similarities shifted by a constant `M`, normalised by the sum of the
shifted exponentials over the whole matrix. -/
noncomputable def specSoftmax {q n : ℕ} (A : Mat q n) (M : ℝ) : Mat q n :=
  Matrix.of fun i j => Real.exp (A i j - M) / ∑ k, ∑ l, Real.exp (A k l - M)

/-- A 2×1 similarity matrix with equal entries (counterexample input). -/
def A2 : Mat 2 1 := Matrix.of ![![0], ![0]]

/-- A network with a single stored pattern `[1]` and the default `beta`. -/
noncomputable def net1 : HopfieldNet 1 1 :=
  hopfield_net_init (Matrix.of ![![1]]) none

/-- A network with stored patterns `[0]` and `[1]` and `beta = 1`; its
`update_rule` on `[[e]]` is the logistic function of `e`. -/
noncomputable def netSig : HopfieldNet 2 1 :=
  hopfield_net_init (Matrix.of ![![0], ![1]]) (some 1)

/-- A network with empty memory (`n = 0`). -/
noncomputable def emptyNet : HopfieldNet 0 1 :=
  hopfield_net_init (Matrix.of ![]) none

/-- The logistic function, the value of `netSig`'s update on `[[e]]`. -/
noncomputable def sigm (e : ℝ) : ℝ := Real.exp e / (1 + Real.exp e)

/-- The orbit of `0` under `sigm`: the entries of `netSig`'s iterate
sequence from the zero query. -/
noncomputable def sigSeq : ℕ → ℝ
  | 0 => 0
  | k + 1 => sigm (sigSeq k)

/-! ## Serialization round-trip (C6) -/

/-- C6: for every vector of f32 values (32-bit patterns), `to_bytes`
produces `d` little-endian 4-byte records with no length prefix, and
`to_f32` recovers the original values exactly. -/
theorem to_bytes_roundTrip (values : List ℕ)
    (hv : ∀ v ∈ values, v < 2 ^ 32) :
    to_f32 (to_bytes values) = values ∧
    (to_bytes values).length = 4 * values.length := by
  induction values with
  | nil => exact ⟨rfl, rfl⟩
  | cons v vs ih =>
    have hvlt : v < 2 ^ 32 := hv v (List.mem_cons_self v vs)
    obtain ⟨ih1, ih2⟩ := ih fun w hw => hv w (List.mem_cons_of_mem v hw)
    constructor
    · simp only [to_bytes, List.flatMap_cons, f32ToLeBytes, List.cons_append,
        List.nil_append, to_f32, f32FromLeBytes]
      refine congrArg₂ List.cons ?_ ih1
      omega
    · simp only [to_bytes, List.flatMap_cons, List.length_append, f32ToLeBytes,
        List.length_cons, List.length_nil] at ih2 ⊢
      omega

/-- Witness for C6 at a concrete vector. -/
theorem to_bytes_roundTrip_witness :
    to_f32 (to_bytes [0, 1, 4294967295]) = [0, 1, 4294967295] ∧
    (to_bytes [0, 1, 4294967295]).length = 4 * 3 :=
  to_bytes_roundTrip [0, 1, 4294967295] (by decide)

/-! ## Exact-byte lookup (C7) -/

/-- C7: `get` returns the text of the first stored row whose blob equals
the query vector's serialized bytes, and the empty string when no row
matches byte-exactly. -/
theorem get_first_byte_exact (docs : Table) (q : List ℕ) :
    ((∀ row ∈ docs, row.embeddings ≠ to_bytes q) →
      VectorDatabase.get docs q = "") ∧
    (∀ pre row suf, docs = pre ++ row :: suf →
      row.embeddings = to_bytes q →
      (∀ r ∈ pre, r.embeddings ≠ to_bytes q) →
      VectorDatabase.get docs q = row.text) := by
  constructor
  · intro hmiss
    have hnone :
        docs.find? (fun row => row.embeddings = to_bytes q) = none := by
      rw [List.find?_eq_none]
      intro row hrow
      simpa using hmiss row hrow
    simp [VectorDatabase.get, hnone]
  · intro pre row suf hdocs hrow hpre
    subst hdocs
    induction pre with
    | nil =>
      simp [VectorDatabase.get, List.find?, hrow]
    | cons r pre ih =>
      have hr : r.embeddings ≠ to_bytes q :=
        hpre r (List.mem_cons_self r pre)
      have hrest := ih fun x hx => hpre x (List.mem_cons_of_mem r hx)
      simp only [VectorDatabase.get, List.cons_append, List.find?] at hrest ⊢
      rw [decide_eq_false hr]
      exact hrest

/-- Witness for C7: two rows with identical blobs; `get` returns the
first text, and a query with no match yields `""`. -/
theorem get_first_byte_exact_witness :
    VectorDatabase.get
      (VectorDatabase.add (VectorDatabase.add [] [5] "a") [5] "b") [5] = "a" ∧
    VectorDatabase.get
      (VectorDatabase.add (VectorDatabase.add [] [5] "a") [5] "b") [7] = "" := by
  constructor
  · exact (get_first_byte_exact
      (VectorDatabase.add (VectorDatabase.add [] [5] "a") [5] "b") [5]).2
      [] ⟨to_bytes [5], "a"⟩ [⟨to_bytes [5], "b"⟩] rfl rfl (by simp)
  · exact (get_first_byte_exact
      (VectorDatabase.add (VectorDatabase.add [] [5] "a") [5] "b") [7]).1
      (by decide)

/-! ## `get_all_embeddings` reconstruction (C8) -/

theorem flatten_length_of_uniform {d : ℕ} :
    ∀ v : List (List ℕ), (∀ r ∈ v, r.length = d) →
      v.flatten.length = v.length * d := by
  intro v
  induction v with
  | nil => intro _; simp
  | cons r v ih =>
    intro h
    have hr : r.length = d := h r (List.mem_cons_self r v)
    have hv := ih fun x hx => h x (List.mem_cons_of_mem r hx)
    simp only [List.flatten_cons, List.length_append, List.length_cons, hv, hr]
    ring

theorem rowMajorRows_flatten_of_uniform {d : ℕ} :
    ∀ v : List (List ℕ), (∀ r ∈ v, r.length = d) →
      rowMajorRows d v.length v.flatten = v := by
  intro v
  induction v with
  | nil => intro _; rfl
  | cons r v ih =>
    intro h
    have hr : r.length = d := h r (List.mem_cons_self r v)
    have hv := ih fun x hx => h x (List.mem_cons_of_mem r hx)
    simp only [List.length_cons, List.flatten_cons, rowMajorRows]
    rw [← hr, List.take_left, List.drop_left, hr, hv]

/-- `to_arr2` on a nonempty list of equal-length rows succeeds and
returns exactly those rows. -/
theorem to_arr2_of_uniform (d : ℕ) (v : List (List ℕ)) (hne : v ≠ [])
    (h : ∀ r ∈ v, r.length = d) : to_arr2 v = some v := by
  match v, hne with
  | v0 :: rest, _ =>
    have hd : v0.length = d := h v0 (List.mem_cons_self v0 rest)
    have hlen := flatten_length_of_uniform (v0 :: rest) h
    rw [to_arr2, if_pos (by rw [hlen, hd]), hd,
      rowMajorRows_flatten_of_uniform (v0 :: rest) h]

/-- C8: on a store whose decoded rows all have the same dimensionality,
`get_all_embeddings` rebuilds the matrix with one row per stored
document, in insertion order; on an empty store it fails (the source
panics at `v[0]`). -/
theorem get_all_embeddings_rows (docs : Table) (d : ℕ)
    (hne : docs ≠ [])
    (hdim : ∀ row ∈ docs, (to_f32 row.embeddings).length = d) :
    VectorDatabase.get_all_embeddings docs
      = some (docs.map fun row => to_f32 row.embeddings) ∧
    VectorDatabase.get_all_embeddings [] = none := by
  refine ⟨?_, rfl⟩
  unfold VectorDatabase.get_all_embeddings
  refine to_arr2_of_uniform d _ (by simpa using hne) ?_
  intro r hr
  obtain ⟨row, hrow, hmap⟩ := List.mem_map.1 hr
  exact hmap ▸ hdim row hrow

/-- Witness for C8: two stored rows come back in insertion order. -/
theorem get_all_embeddings_rows_witness :
    VectorDatabase.get_all_embeddings
      (VectorDatabase.add (VectorDatabase.add [] [5] "a") [9] "b")
      = some [[5], [9]] ∧
    VectorDatabase.get_all_embeddings [] = none := by
  have h := get_all_embeddings_rows
    (VectorDatabase.add (VectorDatabase.add [] [5] "a") [9] "b") 1
    (by decide) (by decide)
  refine ⟨?_, h.2⟩
  rw [h.1]
  decide

/-! ## Dimensionality mismatch handling (C9) -/

/-- Counterexample to C9: a 5-byte blob is not rejected; `to_f32`
silently drops the trailing byte and decodes the 4-byte prefix. -/
theorem to_f32_truncation_counterexample :
    to_f32 [1, 0, 0, 0, 9] = [1] ∧
    to_f32 [1, 0, 0, 0, 9] = to_f32 [1, 0, 0, 0] := by
  constructor <;> decide

/-- C9 amended: no distinct dimensionality error exists.  `to_f32`
decodes exactly `⌊len/4⌋` records, ignoring any trailing remainder
(silent truncation), and `to_arr2` silently re-slices rows of
inconsistent lengths whenever the total entry count happens to equal
`n * d0`, failing (panicking) only when it does not. -/
theorem dimension_mismatch_is_silent (bytes : List ℕ) :
    to_f32 bytes = to_f32 (bytes.take (4 * (bytes.length / 4))) ∧
    (to_f32 bytes).length = bytes.length / 4 ∧
    to_arr2 [[1, 2], [3, 4, 5], [6]] = some [[1, 2], [3, 4], [5, 6]] ∧
    to_arr2 [[1, 2], [3, 4], [5]] = none := by
  refine ⟨?_, ?_, by decide, by decide⟩
  · induction bytes using to_f32.induct with
    | case1 b0 b1 b2 b3 rest ih =>
      have harith : 4 * ((rest.length + 4) / 4) = 4 * (rest.length / 4) + 4 := by
        omega
      simp only [to_f32, List.length_cons]
      have hlen : rest.length + 1 + 1 + 1 + 1 = rest.length + 4 := by omega
      rw [hlen, harith]
      simp only [List.take_succ_cons, to_f32]
      exact congrArg _ ih
    | case2 bs h =>
      match bs, h with
      | [], _ => simp [to_f32]
      | [b0], _ => simp [to_f32]
      | [b0, b1], _ => simp [to_f32]
      | [b0, b1, b2], _ => simp [to_f32]
      | b0 :: b1 :: b2 :: b3 :: rest, h => exact absurd rfl (h b0 b1 b2 b3 rest)
  · induction bytes using to_f32.induct with
    | case1 b0 b1 b2 b3 rest ih =>
      simp only [to_f32, List.length_cons, ih]
      omega
    | case2 bs h =>
      match bs, h with
      | [], _ => simp [to_f32]
      | [b0], _ => simp [to_f32]
      | [b0, b1], _ => simp [to_f32]
      | [b0, b1, b2], _ => simp [to_f32]
      | b0 :: b1 :: b2 :: b3 :: rest, h => exact absurd rfl (h b0 b1 b2 b3 rest)

/-! ## Softmax normalisation (C1, C2) -/

theorem softmax_apply {q n : ℕ} (hq : 0 < q) (hn : 0 < n) (A : Mat q n)
    (i : Fin q) (j : Fin n) :
    softmax hq hn A i j =
      Real.exp (A i j - globalMax hq hn A) /
        ∑ k, ∑ l, Real.exp (A k l - globalMax hq hn A) := rfl

theorem softmax_den_pos {q n : ℕ} (hq : 0 < q) (hn : 0 < n) (A : Mat q n)
    (m : ℝ) : 0 < ∑ k : Fin q, ∑ l : Fin n, Real.exp (A k l - m) :=
  Finset.sum_pos
    (fun _ _ => Finset.sum_pos (fun _ _ => Real.exp_pos _)
      ⟨⟨0, hn⟩, Finset.mem_univ _⟩)
    ⟨⟨0, hq⟩, Finset.mem_univ _⟩

theorem softmax_total_sum {q n : ℕ} (hq : 0 < q) (hn : 0 < n)
    (A : Mat q n) : ∑ i, ∑ j, softmax hq hn A i j = 1 := by
  have hs := softmax_den_pos hq hn A (globalMax hq hn A)
  have hsum : ∑ i, ∑ j, softmax hq hn A i j
      = (∑ i, ∑ j, Real.exp (A i j - globalMax hq hn A)) /
        ∑ k, ∑ l, Real.exp (A k l - globalMax hq hn A) := by
    rw [Finset.sum_div]
    exact Finset.sum_congr rfl fun i _ => by rw [Finset.sum_div]; rfl
  rw [hsum, div_self (ne_of_gt hs)]

theorem softmax_row_sum_one {n : ℕ} (hn : 0 < n) (hq : 0 < 1)
    (A : Mat 1 n) (i : Fin 1) : ∑ j, softmax hq hn A i j = 1 := by
  have h := softmax_total_sum hq hn A
  rw [Fin.sum_univ_one] at h
  have hi : i = 0 := Subsingleton.elim i 0
  rw [hi]
  exact h

theorem update_row_mem_convexHull {n d : ℕ} (hn : 0 < n)
    (net : HopfieldNet n d) (eps : Mat 1 d) (i : Fin 1) :
    net.update_rule hn Nat.one_pos eps i ∈ convexHull ℝ (Set.range net.x) := by
  have hs := softmax_den_pos Nat.one_pos hn
    (net.beta • (eps * net.x.transpose))
    (globalMax Nat.one_pos hn (net.beta • (eps * net.x.transpose)))
  have hw0 : ∀ j ∈ (Finset.univ : Finset (Fin n)),
      0 ≤ softmax Nat.one_pos hn (net.beta • (eps * net.x.transpose)) i j :=
    fun j _ => div_nonneg (Real.exp_nonneg _) (le_of_lt hs)
  have hws :
      ∑ j, softmax Nat.one_pos hn (net.beta • (eps * net.x.transpose)) i j
        = 1 :=
    softmax_row_sum_one hn Nat.one_pos _ i
  have hmem := Finset.centerMass_mem_convexHull
    (Finset.univ : Finset (Fin n)) hw0 (by rw [hws]; exact one_pos)
    (fun j _ => Set.mem_range_self (f := net.x) j)
  rw [Finset.centerMass_eq_of_sum_1 _ _ hws] at hmem
  have hrow : net.update_rule hn Nat.one_pos eps i
      = ∑ j, softmax Nat.one_pos hn
          (net.beta • (eps * net.x.transpose)) i j • net.x j := by
    funext k
    rw [HopfieldNet.update_rule]
    simp only [Finset.sum_apply, Pi.smul_apply, smul_eq_mul, Matrix.mul_apply]
  rw [hrow]
  exact hmem

/-- C1 [amended]: the code's softmax normalises by the sum over ALL
entries, so the entries of the whole output matrix sum to 1; for a
single-row similarity matrix (`q = 1`) that row sums to 1, and then the
single output row of `update_rule` lies in the convex hull of the stored
patterns. -/
theorem softmax_normalisation :
    (∀ q n (hq : 0 < q) (hn : 0 < n) (A : Mat q n),
      ∑ i, ∑ j, softmax hq hn A i j = 1) ∧
    (∀ n (hn : 0 < n) (A : Mat 1 n) (i : Fin 1),
      ∑ j, softmax Nat.one_pos hn A i j = 1) ∧
    (∀ n d (hn : 0 < n) (net : HopfieldNet n d) (eps : Mat 1 d) (i : Fin 1),
      net.update_rule hn Nat.one_pos eps i ∈ convexHull ℝ (Set.range net.x)) :=
  ⟨fun _ _ hq hn A => softmax_total_sum hq hn A,
   fun _ hn A i => softmax_row_sum_one hn Nat.one_pos A i,
   fun _ _ hn net eps i => update_row_mem_convexHull hn net eps i⟩

/-- Witness for C1 [amended] at a concrete 1×1 similarity matrix. -/
theorem softmax_normalisation_witness :
    ∑ i, ∑ j, softmax Nat.one_pos Nat.one_pos (Matrix.of ![![(5 : ℝ)]]) i j
      = 1 :=
  softmax_normalisation.1 1 1 Nat.one_pos Nat.one_pos (Matrix.of ![![(5 : ℝ)]])

/-- Counterexample to C1 as stated: on the 2×1 similarity matrix with
both entries `0`, the first softmax output row sums to `1/2`, not `1`
(the normaliser is the global sum, not the row sum). -/
theorem softmax_row_sum_counterexample :
    (∑ j, softmax (Nat.succ_pos 1) Nat.one_pos A2 (0 : Fin 2) j) = 1 / 2 ∧
    (1 / 2 : ℝ) ≠ 1 := by
  refine ⟨?_, by norm_num⟩
  rw [Fin.sum_univ_one, softmax_apply]
  rw [Fin.sum_univ_two, Fin.sum_univ_one, Fin.sum_univ_one]
  have h00 : A2 (0 : Fin 2) (0 : Fin 1) = 0 := rfl
  have h10 : A2 (1 : Fin 2) (0 : Fin 1) = 0 := rfl
  rw [h00, h10]
  have hE := Real.exp_pos (0 - globalMax (Nat.succ_pos 1) Nat.one_pos A2)
  field_simp
  ring

theorem le_foldl_max : ∀ (l : List ℝ) (a : ℝ), a ≤ l.foldl max a := by
  intro l
  induction l with
  | nil => intro a; exact le_refl a
  | cons b l ih =>
    intro a
    exact le_trans (le_max_left a b) (ih (max a b))

theorem foldl_max_le_of_mem :
    ∀ (l : List ℝ) (a x : ℝ), x ∈ l → x ≤ l.foldl max a := by
  intro l
  induction l with
  | nil => intro a x hx; exact absurd hx (List.not_mem_nil x)
  | cons b l ih =>
    intro a x hx
    rcases List.mem_cons.1 hx with rfl | hx
    · exact le_trans (le_max_right a x) (le_foldl_max l (max a x))
    · exact ih (max a b) x hx

theorem foldl_max_eq_or_mem :
    ∀ (l : List ℝ) (a : ℝ), l.foldl max a = a ∨ l.foldl max a ∈ l := by
  intro l
  induction l with
  | nil => intro a; exact Or.inl rfl
  | cons b l ih =>
    intro a
    rcases ih (max a b) with h | h
    · rcases max_choice a b with hab | hab
      · exact Or.inl (by rw [List.foldl_cons, h, hab])
      · refine Or.inr (List.mem_cons.2 (Or.inl ?_))
        rw [List.foldl_cons, h, hab]
    · exact Or.inr (List.mem_cons.2 (Or.inr h))

theorem mem_entriesList {q n : ℕ} (A : Mat q n) (i : Fin q) (j : Fin n) :
    A i j ∈ entriesList A :=
  List.mem_flatMap.2 ⟨i, List.mem_finRange i,
    List.mem_map.2 ⟨j, List.mem_finRange j, rfl⟩⟩

theorem of_mem_entriesList {q n : ℕ} {A : Mat q n} {x : ℝ}
    (hx : x ∈ entriesList A) : ∃ i j, x = A i j := by
  obtain ⟨i, _, hx⟩ := List.mem_flatMap.1 hx
  obtain ⟨j, _, hx⟩ := List.mem_map.1 hx
  exact ⟨i, j, hx.symm⟩

/-- The fold in `softmax` really computes the single global maximum of
the whole matrix: it bounds every entry and is itself an entry. -/
theorem globalMax_is_max {q n : ℕ} (hq : 0 < q) (hn : 0 < n) (A : Mat q n) :
    (∀ i j, A i j ≤ globalMax hq hn A) ∧
    (∃ i j, globalMax hq hn A = A i j) := by
  constructor
  · intro i j
    exact foldl_max_le_of_mem (entriesList A) _ (A i j) (mem_entriesList A i j)
  · rcases foldl_max_eq_or_mem (entriesList A) (A ⟨0, hq⟩ ⟨0, hn⟩) with h | h
    · exact ⟨⟨0, hq⟩, ⟨0, hn⟩, h⟩
    · exact of_mem_entriesList h

/-- C2: `update_rule eps` is `softmax(beta · eps · Xᵀ) · X` (a `q × d`
matrix), where the numerical-stability shift `M` subtracted before
exponentiation is a single global maximum of the whole `q × n`
similarity matrix. -/
theorem update_rule_spec {n d q : ℕ} (net : HopfieldNet n d) (hn : 0 < n)
    (hq : 0 < q) (eps : Mat q d) :
    ∃ M : ℝ,
      (∀ i j, (net.beta • (eps * net.x.transpose)) i j ≤ M) ∧
      (∃ i j, M = (net.beta • (eps * net.x.transpose)) i j) ∧
      net.update_rule hn hq eps
        = specSoftmax (net.beta • (eps * net.x.transpose)) M * net.x := by
  refine ⟨globalMax hq hn (net.beta • (eps * net.x.transpose)), ?_, ?_, rfl⟩
  · exact (globalMax_is_max hq hn _).1
  · exact (globalMax_is_max hq hn _).2

/-- Witness for C2 at a concrete network and query. -/
theorem update_rule_spec_witness :
    ∃ M : ℝ,
      (∀ i j, (net1.beta • (Matrix.of ![![(2 : ℝ)]] * net1.x.transpose)) i j
        ≤ M) ∧
      (∃ i j,
        M = (net1.beta • (Matrix.of ![![(2 : ℝ)]] * net1.x.transpose)) i j) ∧
      net1.update_rule Nat.one_pos Nat.one_pos (Matrix.of ![![(2 : ℝ)]])
        = specSoftmax
            (net1.beta • (Matrix.of ![![(2 : ℝ)]] * net1.x.transpose)) M
            * net1.x :=
  update_rule_spec net1 Nat.one_pos Nat.one_pos (Matrix.of ![![(2 : ℝ)]])

/-! ## The convergence loop (C3, C4, C5, C10) -/

theorem update_rule_checked_pos {n d : ℕ} (net : HopfieldNet n d)
    (hn : 0 < n) (eps : Mat 1 d) :
    net.update_rule_checked eps
      = some (net.update_rule hn Nat.one_pos eps) :=
  dif_pos ⟨Nat.one_pos, hn⟩

theorem update_rule_checked_empty {d q : ℕ} (net : HopfieldNet 0 d)
    (eps : Mat q d) : net.update_rule_checked eps = none :=
  dif_neg (by simp)

theorem iterate_shift {n d : ℕ} (net : HopfieldNet n d) (hn : 0 < n)
    (eps : Mat 1 d) :
    ∀ j, net.iterate hn (net.update_rule hn Nat.one_pos eps) j
      = net.iterate hn eps (j + 1) := by
  intro j
  induction j with
  | zero => rfl
  | succ j ih => rw [HopfieldNet.iterate, ih, ← HopfieldNet.iterate]

/-- Any successful run of the loop body returns either an input on which
the very first equality check passed, or a fixed point of
`update_rule`. -/
theorem convergeFuel_some_fixed {n d : ℕ} (net : HopfieldNet n d)
    (hn : 0 < n) :
    ∀ fuel (pre eps r : Mat 1 d), net.convergeFuel fuel pre eps = some r →
      (r = pre ∧ pre = eps) ∨ net.update_rule hn Nat.one_pos r = r := by
  intro fuel
  induction fuel with
  | zero =>
    intro pre eps r h
    exact absurd h (by simp [HopfieldNet.convergeFuel])
  | succ fuel ih =>
    intro pre eps r h
    simp only [HopfieldNet.convergeFuel] at h
    by_cases hpe : pre = eps
    · rw [if_pos hpe] at h
      exact Or.inl ⟨(Option.some_inj.1 h).symm, hpe⟩
    · rw [if_neg hpe, update_rule_checked_pos net hn, Option.some_bind] at h
      rcases ih eps (net.update_rule hn Nat.one_pos eps) r h with
        ⟨hre, heq⟩ | hfix
      · right
        rw [hre, ← heq]
      · exact Or.inr hfix

/-- Any successful run of the loop returns either the zero matrix on the
zero query, or a point where consecutive iterates coincide. -/
theorem convergeFuel_some_cases {n d : ℕ} (net : HopfieldNet n d)
    (hn : 0 < n) :
    ∀ fuel (pre eps r : Mat 1 d), net.convergeFuel fuel pre eps = some r →
      pre = eps ∨
        ∃ k, net.iterate hn eps (k + 1) = net.iterate hn eps k := by
  intro fuel
  induction fuel with
  | zero =>
    intro pre eps r h
    exact absurd h (by simp [HopfieldNet.convergeFuel])
  | succ fuel ih =>
    intro pre eps r h
    simp only [HopfieldNet.convergeFuel] at h
    by_cases hpe : pre = eps
    · exact Or.inl hpe
    · rw [if_neg hpe, update_rule_checked_pos net hn, Option.some_bind] at h
      rcases ih eps (net.update_rule hn Nat.one_pos eps) r h with
        heq | ⟨k, hk⟩
      · right
        exact ⟨0, heq.symm⟩
      · right
        refine ⟨k + 1, ?_⟩
        rw [← iterate_shift net hn eps (k + 1), ← iterate_shift net hn eps k]
        exact hk

/-- Whenever consecutive iterates coincide, the loop terminates within
`k + 2` equality checks, from any initial `pre`. -/
theorem convergeFuel_of_consec {n d : ℕ} (net : HopfieldNet n d)
    (hn : 0 < n) :
    ∀ k (eps pre : Mat 1 d),
      net.iterate hn eps (k + 1) = net.iterate hn eps k →
      ∃ r, net.convergeFuel (k + 2) pre eps = some r := by
  intro k
  induction k with
  | zero =>
    intro eps pre h
    have hup : net.update_rule hn Nat.one_pos eps = eps := h
    by_cases hpe : pre = eps
    · exact ⟨pre, by simp only [HopfieldNet.convergeFuel]; rw [if_pos hpe]⟩
    · refine ⟨eps, ?_⟩
      simp only [HopfieldNet.convergeFuel]
      rw [if_neg hpe, update_rule_checked_pos net hn, Option.some_bind, hup,
        if_pos rfl]
  | succ k ih =>
    intro eps pre h
    by_cases hpe : pre = eps
    · exact ⟨pre, by simp only [HopfieldNet.convergeFuel]; rw [if_pos hpe]⟩
    · have h2 : net.iterate hn (net.update_rule hn Nat.one_pos eps) (k + 1)
          = net.iterate hn (net.update_rule hn Nat.one_pos eps) k := by
        rw [iterate_shift net hn eps (k + 1), iterate_shift net hn eps k]
        exact h
      obtain ⟨r, hr⟩ := ih (net.update_rule hn Nat.one_pos eps) eps h2
      refine ⟨r, ?_⟩
      simp only [HopfieldNet.convergeFuel]
      rw [if_neg hpe, update_rule_checked_pos net hn, Option.some_bind]
      exact hr

theorem one_mat_ne_zero : Matrix.of ![![(1 : ℝ)]] ≠ (0 : Mat 1 1) := by
  intro h
  have h00 := congrFun (congrFun h 0) 0
  simp at h00

theorem three_mat_ne_zero : Matrix.of ![![(3 : ℝ)]] ≠ (0 : Mat 1 1) := by
  intro h
  have h00 : (3 : ℝ) = 0 := congrFun (congrFun h 0) 0
  norm_num at h00

/-- On a single-pattern memory, the 1×1 softmax is `[[1]]` whatever the
similarity value, so `net1.update_rule` is constantly the stored row. -/
theorem net1_update (eps : Mat 1 1) :
    net1.update_rule Nat.one_pos Nat.one_pos eps = Matrix.of ![![1]] := by
  funext i k
  have hi : i = 0 := Subsingleton.elim i 0
  have hk : k = 0 := Subsingleton.elim k 0
  subst hi; subst hk
  rw [HopfieldNet.update_rule, Matrix.mul_apply, Fin.sum_univ_one,
    softmax_apply, Fin.sum_univ_one, Fin.sum_univ_one,
    div_self (Real.exp_ne_zero _), one_mul]
  rfl

theorem sigm_strict_mono {a b : ℝ} (h : a < b) : sigm a < sigm b := by
  have ha := Real.exp_pos a
  have hb := Real.exp_pos b
  have hab : Real.exp a < Real.exp b := Real.exp_lt_exp.2 h
  rw [sigm, sigm, div_lt_div_iff₀ (by positivity) (by positivity)]
  nlinarith

theorem sigSeq_lt_succ : ∀ k, sigSeq k < sigSeq (k + 1)
  | 0 => by
      rw [sigSeq, sigSeq, sigSeq, sigm, Real.exp_zero]
      norm_num
  | k + 1 => sigm_strict_mono (sigSeq_lt_succ k)

/-- `netSig`'s similarity row for the query `[[e]]` is `[[0, e]]`. -/
theorem netSig_similarity (e : ℝ) :
    netSig.beta • (Matrix.of ![![e]] * netSig.x.transpose)
      = Matrix.of ![![(0 : ℝ), e]] := by
  funext i j
  have hi : i = 0 := Subsingleton.elim i 0
  subst hi
  fin_cases j <;>
    simp [netSig, hopfield_net_init, Matrix.mul_apply, Fin.sum_univ_one,
      Matrix.transpose_apply, Matrix.vecHead, Matrix.vecTail,
      Matrix.cons_val_zero, Matrix.cons_val_one]

/-- `netSig.update_rule` on `[[e]]` is the logistic function of `e`,
for any value of the stability shift. -/
theorem netSig_update (e : ℝ) :
    netSig.update_rule (Nat.succ_pos 1) Nat.one_pos (Matrix.of ![![e]])
      = Matrix.of ![![sigm e]] := by
  have key : ∀ m : ℝ,
      Real.exp (e - m) / (Real.exp (0 - m) + Real.exp (e - m)) = sigm e := by
    intro m
    have hden : (0 : ℝ) < Real.exp (0 - m) + Real.exp (e - m) := by positivity
    rw [sigm, div_eq_div_iff (ne_of_gt hden) (by positivity)]
    have h0m : Real.exp (0 - m) = Real.exp (-m) := by rw [zero_sub]
    have hem : Real.exp (e - m) = Real.exp e * Real.exp (-m) := by
      rw [sub_eq_add_neg, Real.exp_add]
    rw [h0m, hem]
    ring
  funext i k
  have hi : i = 0 := Subsingleton.elim i 0
  have hk : k = 0 := Subsingleton.elim k 0
  subst hi; subst hk
  rw [HopfieldNet.update_rule, netSig_similarity, Matrix.mul_apply,
    Fin.sum_univ_two, softmax_apply, softmax_apply]
  simp only [Fin.sum_univ_one, Fin.sum_univ_two]
  have hA0 : Matrix.of ![![(0 : ℝ), e]] (0 : Fin 1) (0 : Fin 2) = 0 := rfl
  have hA1 : Matrix.of ![![(0 : ℝ), e]] (0 : Fin 1) (1 : Fin 2) = e := rfl
  have hx0 : netSig.x (0 : Fin 2) (0 : Fin 1) = 0 := rfl
  have hx1 : netSig.x (1 : Fin 2) (0 : Fin 1) = 1 := rfl
  rw [hA0, hA1, hx0, hx1, mul_zero, mul_one, zero_add]
  exact key _

/-- The iterate sequence of `netSig` from the zero query is the orbit of
`0` under the logistic map. -/
theorem netSig_iterate (k : ℕ) :
    netSig.iterate (Nat.succ_pos 1) (0 : Mat 1 1) k
      = Matrix.of ![![sigSeq k]] := by
  induction k with
  | zero =>
    funext i j
    have hi : i = 0 := Subsingleton.elim i 0
    have hj : j = 0 := Subsingleton.elim j 0
    subst hi; subst hj
    rfl
  | succ k ih =>
    rw [HopfieldNet.iterate, ih, netSig_update]
    rfl

/-- Counterexample to C3 as stated: with one stored pattern `[1]`,
`converge` on the zero query terminates (the zero-initialised `pre`
equals the query at the first check) and returns the zero matrix, which
is not a fixed point of `update_rule`. -/
theorem converge_zero_not_fixed :
    net1.converge 1 (0 : Mat 1 1) = some 0 ∧
    net1.update_rule Nat.one_pos Nat.one_pos (0 : Mat 1 1)
      ≠ (0 : Mat 1 1) := by
  constructor
  · simp only [HopfieldNet.converge, HopfieldNet.convergeFuel]
    rfl
  · rw [net1_update]
    exact one_mat_ne_zero

/-- C3 [amended]: when `converge` terminates on a NONZERO query, the
returned value is a bit-for-bit fixed point of `update_rule` (on the
zero query the returned zero matrix need not be one); in either case
`converge` on its own output returns that output again. -/
theorem converge_result_fixed_point {n d : ℕ} (net : HopfieldNet n d)
    (hn : 0 < n) (fuel : ℕ) (eps r : Mat 1 d)
    (h : net.converge fuel eps = some r) :
    (eps ≠ 0 → net.update_rule hn Nat.one_pos r = r) ∧
    net.converge 2 r = some r := by
  have hcases := convergeFuel_some_fixed net hn fuel 0 eps r h
  constructor
  · intro hne
    rcases hcases with ⟨_, h0e⟩ | hfix
    · exact absurd h0e.symm hne
    · exact hfix
  · rcases hcases with ⟨hr0, _⟩ | hfix
    · rw [hr0]
      simp only [HopfieldNet.converge, HopfieldNet.convergeFuel]
      rfl
    · by_cases hzr : (0 : Mat 1 d) = r
      · simp only [HopfieldNet.converge, HopfieldNet.convergeFuel]
        rw [if_pos hzr, hzr]
      · simp only [HopfieldNet.converge, HopfieldNet.convergeFuel]
        rw [if_neg hzr, update_rule_checked_pos net hn, Option.some_bind,
          hfix]
        simp only [HopfieldNet.convergeFuel]
        rfl

/-- Witness for C3 [amended]: a terminating nonzero run at `net1`. -/
theorem converge_result_fixed_point_witness :
    (Matrix.of ![![(1 : ℝ)]] ≠ (0 : Mat 1 1) →
      net1.update_rule Nat.one_pos Nat.one_pos (Matrix.of ![![(1 : ℝ)]])
        = Matrix.of ![![(1 : ℝ)]]) ∧
    net1.converge 2 (Matrix.of ![![(1 : ℝ)]])
      = some (Matrix.of ![![(1 : ℝ)]]) := by
  have hconc : net1.converge 2 (Matrix.of ![![(1 : ℝ)]])
      = some (Matrix.of ![![(1 : ℝ)]]) := by
    simp only [HopfieldNet.converge, HopfieldNet.convergeFuel]
    rw [if_neg (fun h => one_mat_ne_zero h.symm),
      update_rule_checked_pos net1 Nat.one_pos, Option.some_bind,
      net1_update]
    simp only [HopfieldNet.convergeFuel]
    rfl
  exact converge_result_fixed_point net1 Nat.one_pos 2 _ _ hconc

/-- Counterexample to C4 as stated: on `netSig` the zero query's iterate
sequence is the strictly increasing logistic orbit, so no iterate ever
equals its predecessor, yet `converge` returns (the zero-initialised
`pre` equals the zero query at the very first check). -/
theorem converge_zero_query_counterexample :
    netSig.converge 1 (0 : Mat 1 1) = some 0 ∧
    ∀ k, netSig.iterate (Nat.succ_pos 1) (0 : Mat 1 1) (k + 1) ≠
      netSig.iterate (Nat.succ_pos 1) (0 : Mat 1 1) k := by
  constructor
  · simp only [HopfieldNet.converge, HopfieldNet.convergeFuel]
    rfl
  · intro k h
    rw [netSig_iterate, netSig_iterate] at h
    have h00 : sigSeq (k + 1) = sigSeq k := congrFun (congrFun h 0) 0
    exact absurd h00 (ne_of_gt (sigSeq_lt_succ k))

/-- C4 [amended]: no iteration cap is imposed; `converge` terminates
exactly when the query is the zero matrix (immediate return against the
zero-initialised `pre`) or some iterate equals its predecessor
bit-for-bit. -/
theorem converge_terminates_iff {n d : ℕ} (net : HopfieldNet n d)
    (hn : 0 < n) (eps : Mat 1 d) :
    net.convergeTerminates eps ↔
      (eps = 0 ∨ ∃ k, net.iterate hn eps (k + 1) = net.iterate hn eps k) := by
  constructor
  · rintro ⟨fuel, r, hr⟩
    rcases convergeFuel_some_cases net hn fuel 0 eps r hr with h0 | hk
    · exact Or.inl h0.symm
    · exact Or.inr hk
  · rintro (rfl | ⟨k, hk⟩)
    · refine ⟨1, 0, ?_⟩
      simp only [HopfieldNet.converge, HopfieldNet.convergeFuel]
      rfl
    · obtain ⟨r, hr⟩ := convergeFuel_of_consec net hn k eps 0 hk
      exact ⟨k + 2, r, hr⟩

/-- Witness for C4 [amended]: `net1` reaches consecutive equal iterates
from the query `[[1]]`, hence terminates. -/
theorem converge_terminates_iff_witness :
    net1.convergeTerminates (Matrix.of ![![(1 : ℝ)]]) :=
  (converge_terminates_iff net1 Nat.one_pos (Matrix.of ![![(1 : ℝ)]])).2
    (Or.inr ⟨0, net1_update (Matrix.of ![![(1 : ℝ)]])⟩)

/-- Counterexample to C5 as stated: with empty memory the engine does
not silently return a (NaN or other) value — the call aborts with no
result (the softmax max fold indexes out of bounds). -/
theorem empty_memory_counterexample :
    emptyNet.update_rule_checked (Matrix.of ![![(3 : ℝ)]]) = none ∧
    emptyNet.converge 5 (Matrix.of ![![(3 : ℝ)]]) = none := by
  refine ⟨update_rule_checked_empty emptyNet _, ?_⟩
  simp only [HopfieldNet.converge, HopfieldNet.convergeFuel]
  rw [if_neg (fun h => three_mat_ne_zero h.symm), update_rule_checked_empty]
  rfl

/-- C5 [amended]: invoking `update` with zero stored patterns panics
(out-of-bounds index while computing the softmax maximum) instead of
returning a value, and `converge` on any nonzero query likewise aborts
on its first `update` call; neither produces a NaN value nor a defined
error. -/
theorem empty_memory_no_value (d q : ℕ) (net : HopfieldNet 0 d)
    (eps2 : Mat q d) (eps : Mat 1 d) :
    net.update_rule_checked eps2 = none ∧
    (eps ≠ 0 → ∀ fuel, net.converge fuel eps = none) := by
  refine ⟨update_rule_checked_empty net eps2, ?_⟩
  intro hne fuel
  cases fuel with
  | zero => rfl
  | succ fuel =>
    simp only [HopfieldNet.converge, HopfieldNet.convergeFuel]
    rw [if_neg (fun h => hne h.symm), update_rule_checked_empty]
    rfl

/-- Witness for C5 [amended] at the concrete empty network. -/
theorem empty_memory_no_value_witness :
    emptyNet.update_rule_checked (0 : Mat 1 1) = none ∧
    emptyNet.converge 3 (Matrix.of ![![(1 : ℝ)]]) = none := by
  have h := empty_memory_no_value 1 1 emptyNet (0 : Mat 1 1)
    (Matrix.of ![![(1 : ℝ)]])
  exact ⟨h.1, h.2 one_mat_ne_zero 3⟩

/-- C10: `pre` is initialised to the 1×d zero matrix, so `converge` on
the all-zeros query passes the very first equality check and returns the
zero matrix without any `update_rule` call: it succeeds even on an empty
memory, where every `update_rule` call panics, and the returned zero
matrix need not be a fixed point of `update_rule`. -/
theorem converge_zero_immediate :
    (∀ n d (net : HopfieldNet n d), net.converge 1 (0 : Mat 1 d) = some 0) ∧
    (∀ d q (net : HopfieldNet 0 d) (eps : Mat q d),
      net.update_rule_checked eps = none) ∧
    net1.update_rule Nat.one_pos Nat.one_pos (0 : Mat 1 1)
      ≠ (0 : Mat 1 1) := by
  refine ⟨?_, ?_, ?_⟩
  · intro n d net
    simp only [HopfieldNet.converge, HopfieldNet.convergeFuel]
    rfl
  · intro d q net eps
    exact update_rule_checked_empty net eps
  · rw [net1_update]
    exact one_mat_ne_zero

end Mhn
